import Mathlib

set_option maxHeartbeats 1000000

/-!
Verification development for the lsm-tree repository: a shallow embedding of
the MVCC stream (`src/mvcc_stream.rs`), the segment multi reader
(`src/segment/multi_reader.rs`), the maybe-inline value coding
(`src/blob_tree/value.rs`) and the compaction worker
(`src/compaction/worker.rs`), together with theorems settling the spec claims.

Iterators over `Result<InternalValue>` are embedded as the list of their
remaining items; the claims quantify over error-free input streams, so the
`Err` branches of the source (which merely propagate the error) are outside
the embedded domain.
-/

namespace LsmTree

/-- `ValueType`: one of Value, Tombstone, WeakTombstone. -/
inductive ValueType where
  | Value
  | Tombstone
  | WeakTombstone
deriving DecidableEq, Repr

/-- A user key is a byte string (bytes as `Nat`), compared lexicographically. -/
abbrev UserKey := List Nat

/-- `InternalKey`: `(user_key, seqno, value_type)`. -/
structure InternalKey where
  user_key : UserKey
  seqno : Nat
  value_type : ValueType
deriving DecidableEq, Repr

/-- `InternalValue`: an internal key together with a user value. -/
structure InternalValue where
  key : InternalKey
  value : List Nat
deriving DecidableEq, Repr

/-- Lexicographic order on byte strings (the `Ord` of Rust byte slices),
used by `next_back` to compare user keys. -/
def ukLt : UserKey → UserKey → Bool
  | _, [] => false
  | [], _ :: _ => true
  | a :: as, b :: bs =>
    if a < b then true
    else if a = b then ukLt as bs
    else false

/-- Modelled from the spec: `InternalValue::is_tombstone` is defined in the
repository's value module, which is not among the provided sources. Per the
spec's data model ("when `ValueType ∈ {Tombstone, WeakTombstone}`, UserValue is
empty") and glossary ("plain tombstones erase all older versions, weak
tombstones erase exactly one"), both `Tombstone` and `WeakTombstone` are
tombstone records. -/
def InternalValue.is_tombstone (v : InternalValue) : Bool :=
  match v.key.value_type with
  | ValueType.Value => false
  | ValueType.Tombstone => true
  | ValueType.WeakTombstone => true

namespace MvccStream

/-- `MvccStream::drain_key_min`: consume all leading items whose user key
equals `key`; stops at the first item with a different user key. -/
def drain_key_min (key : UserKey) : List InternalValue → List InternalValue
  | [] => []
  | x :: xs => if x.key.user_key = key then drain_key_min key xs else x :: xs

/-- `MvccStream::next`: one forward emission. The state is the list of
remaining items of the inner double-ended peekable iterator; the result is the
emitted item and the remaining state, or `none` when the stream is exhausted.
Mirrors the source: a weak tombstone head with an exhausted remainder is
returned (`None => return Some(Ok(head))`); a weak tombstone followed by a
`Value` of the same user key consumes that value and continues; a weak
tombstone followed by anything else is dropped and iteration continues; any
other head is emitted after draining the remaining versions of its key. -/
def next : List InternalValue → Option (InternalValue × List InternalValue)
  | [] => none
  | head :: rest =>
    if head.key.value_type = ValueType.WeakTombstone then
      match rest with
      | [] => some (head, [])
      | nxt :: rest2 =>
        if nxt.key.value_type = ValueType.Value ∧ nxt.key.user_key = head.key.user_key then
          next rest2
        else
          next (nxt :: rest2)
    else
      some (head, drain_key_min head.key.user_key rest)
termination_by l => l.length
decreasing_by all_goals simp only [List.length_cons] <;> omega

/-- `MvccStream::next_back`, written on the reversed remaining stream: the head
of the list argument is the back of the inner iterator, so `inner.next_back()`
is head removal and `inner.peek_back()` is peeking the second element. `stack`
is the source's smallvec of staged candidates with its top first (push is cons,
pop takes the head). Returns the emitted item and the remaining reversed
stream. The stack is local to one `next_back` call, exactly as in the source;
whatever is left in it when the call returns is discarded. -/
def next_back_rev (stack : List InternalValue) :
    List InternalValue → Option (InternalValue × List InternalValue)
  | [] => none
  | tail :: rest =>
    match rest with
    | [] =>
      if tail.key.value_type = ValueType.WeakTombstone then
        match stack with
        | [] => none
        | v :: _ => some (v, [])
      else
        some (tail, [])
    | prev :: _ =>
      if ukLt prev.key.user_key tail.key.user_key then
        if tail.key.value_type = ValueType.WeakTombstone then
          match stack with
          | v :: _ => some (v, rest)
          | [] => next_back_rev [] rest
        else
          some (tail, rest)
      else
        let stack1 := if tail.is_tombstone then stack else tail :: stack
        let stack2 :=
          if prev.key.value_type = ValueType.WeakTombstone then stack1.tail else stack1
        next_back_rev stack2 rest

theorem drain_key_min_length_le (key : UserKey) (l : List InternalValue) :
    (drain_key_min key l).length ≤ l.length := by
  induction l with
  | nil => simp [drain_key_min]
  | cons x xs ih =>
    simp only [drain_key_min]
    split
    · exact Nat.le_succ_of_le ih
    · exact Nat.le_refl _

theorem next_some_length_aux (l : List InternalValue) :
    ∀ v rest, next l = some (v, rest) → rest.length < l.length := by
  induction l using next.induct with
  | case1 =>
    intro v rest h
    simp [next] at h
  | case2 x hw =>
    intro v rest h
    simp [next, hw] at h
    obtain ⟨-, h2⟩ := h
    subst h2
    simp
  | case3 x hw x1 xs hv ih =>
    intro v rest h
    rw [show next (x :: x1 :: xs) = next xs from by simp [next, hw, hv]] at h
    have := ih v rest h
    simp only [List.length_cons]
    omega
  | case4 x hw x1 xs hv ih =>
    intro v rest h
    rw [show next (x :: x1 :: xs) = next (x1 :: xs) from by simp [next, hw, hv]] at h
    exact Nat.lt_succ_of_lt (ih v rest h)
  | case5 x xs hw =>
    intro v rest h
    rw [next.eq_def] at h
    simp [hw] at h
    obtain ⟨-, h2⟩ := h
    subst h2
    exact Nat.lt_succ_of_le (drain_key_min_length_le _ _)

theorem next_some_length {l rest : List InternalValue} {v : InternalValue}
    (h : next l = some (v, rest)) : rest.length < l.length :=
  next_some_length_aux l v rest h

theorem next_back_rev_some_length_aux (stack l : List InternalValue) :
    ∀ v rest, next_back_rev stack l = some (v, rest) → rest.length < l.length := by
  induction stack, l using next_back_rev.induct with
  | case1 stack =>
    intro v rest h
    simp [next_back_rev] at h
  | case2 x hw =>
    intro v rest h
    simp [next_back_rev, hw] at h
  | case3 x hw w ws =>
    intro v rest h
    simp [next_back_rev, hw] at h
    obtain ⟨-, h2⟩ := h
    subst h2
    simp
  | case4 stack x hw =>
    intro v rest h
    simp [next_back_rev, hw] at h
    obtain ⟨-, h2⟩ := h
    subst h2
    simp
  | case5 x x1 xs hlt hw w ws =>
    intro v rest h
    simp [next_back_rev, hlt, hw] at h
    obtain ⟨-, h2⟩ := h
    subst h2
    simp
  | case6 x x1 xs hlt hw ih =>
    intro v rest h
    rw [show next_back_rev [] (x :: x1 :: xs) = next_back_rev [] (x1 :: xs) from by
      simp [next_back_rev, hlt, hw]] at h
    exact Nat.lt_succ_of_lt (ih v rest h)
  | case7 stack x x1 xs hlt hw =>
    intro v rest h
    simp [next_back_rev, hlt, hw] at h
    obtain ⟨-, h2⟩ := h
    subst h2
    simp
  | case8 stack x x1 xs hlt stack1 stack2 ih =>
    intro v rest h
    rw [show next_back_rev stack (x :: x1 :: xs) =
        next_back_rev
          (if x1.key.value_type = ValueType.WeakTombstone then
            (if x.is_tombstone then stack else x :: stack).tail
          else if x.is_tombstone then stack else x :: stack) (x1 :: xs) from by
      simp [next_back_rev, hlt]] at h
    exact Nat.lt_succ_of_lt (ih v rest h)

theorem next_back_rev_some_length {stack l rest : List InternalValue} {v : InternalValue}
    (h : next_back_rev stack l = some (v, rest)) : rest.length < l.length :=
  next_back_rev_some_length_aux stack l v rest h

/-- Fully consuming the MVCC stream forward: the list of items emitted by
repeated `next` calls, in emission order. -/
def forwardList (l : List InternalValue) : List InternalValue :=
  match h : next l with
  | none => []
  | some (v, rest) => v :: forwardList rest
termination_by l.length
decreasing_by exact next_some_length h

/-- Fully consuming the MVCC stream backward, on the reversed representation:
the list of items emitted by repeated `next_back` calls, in call order. -/
def backwardListRev (rl : List InternalValue) : List InternalValue :=
  match h : next_back_rev [] rl with
  | none => []
  | some (v, rest) => v :: backwardListRev rest
termination_by rl.length
decreasing_by exact next_back_rev_some_length h

/-- The items yielded by repeated `next_back` calls on a stream whose items,
front to back, are `l`. -/
def backwardList (l : List InternalValue) : List InternalValue :=
  backwardListRev l.reverse

theorem forwardList_eq_nil {l : List InternalValue} (h : next l = none) :
    forwardList l = [] := by
  unfold forwardList
  rw [h]

theorem forwardList_eq_cons {l rest : List InternalValue} {v : InternalValue}
    (h : next l = some (v, rest)) : forwardList l = v :: forwardList rest := by
  conv_lhs => unfold forwardList
  rw [h]

theorem backwardListRev_eq_nil {rl : List InternalValue} (h : next_back_rev [] rl = none) :
    backwardListRev rl = [] := by
  unfold backwardListRev
  rw [h]

theorem backwardListRev_eq_cons {rl rest : List InternalValue} {v : InternalValue}
    (h : next_back_rev [] rl = some (v, rest)) :
    backwardListRev rl = v :: backwardListRev rest := by
  conv_lhs => unfold backwardListRev
  rw [h]

theorem drain_key_min_suffix (key : UserKey) (l : List InternalValue) :
    drain_key_min key l <:+ l := by
  induction l with
  | nil => simp [drain_key_min]
  | cons x xs ih =>
    simp only [drain_key_min]
    split
    · exact ih.trans (List.suffix_cons x xs)
    · exact List.suffix_refl _

theorem next_suffix {l rest : List InternalValue} {v : InternalValue}
    (h : next l = some (v, rest)) : rest <:+ l := by
  induction l using next.induct generalizing v rest with
  | case1 => simp [next] at h
  | case2 x hw =>
    simp [next, hw] at h
    obtain ⟨-, h2⟩ := h
    subst h2
    exact List.nil_suffix
  | case3 x hw x1 xs hv ih =>
    rw [show next (x :: x1 :: xs) = next xs from by simp [next, hw, hv]] at h
    exact (ih h).trans ((List.suffix_cons x1 xs).trans (List.suffix_cons x (x1 :: xs)))
  | case4 x hw x1 xs hv ih =>
    rw [show next (x :: x1 :: xs) = next (x1 :: xs) from by simp [next, hw, hv]] at h
    exact (ih h).trans (List.suffix_cons x (x1 :: xs))
  | case5 x xs hw =>
    rw [next.eq_def] at h
    simp [hw] at h
    obtain ⟨-, h2⟩ := h
    subst h2
    exact (drain_key_min_suffix _ _).trans (List.suffix_cons x xs)

/-- A weak tombstone can only be emitted forward when the stream is exhausted
behind it: the emission is the stream's last item, and nothing remains. -/
theorem next_weak_last {l rest : List InternalValue} {v : InternalValue}
    (h : next l = some (v, rest)) (hv : v.key.value_type = ValueType.WeakTombstone) :
    l.getLast? = some v ∧ rest = [] := by
  induction l using next.induct generalizing v rest with
  | case1 => simp [next] at h
  | case2 x hw =>
    simp [next, hw] at h
    obtain ⟨h1, h2⟩ := h
    subst h1
    subst h2
    simp
  | case3 x hw x1 xs hv2 ih =>
    rw [show next (x :: x1 :: xs) = next xs from by simp [next, hw, hv2]] at h
    obtain ⟨h1, h2⟩ := ih h hv
    refine ⟨?_, h2⟩
    match xs, h1 with
    | y :: ys, h1 => rw [List.getLast?_cons_cons, List.getLast?_cons_cons] at *; exact h1
  | case4 x hw x1 xs hv2 ih =>
    rw [show next (x :: x1 :: xs) = next (x1 :: xs) from by simp [next, hw, hv2]] at h
    obtain ⟨h1, h2⟩ := ih h hv
    exact ⟨by rw [List.getLast?_cons_cons]; exact h1, h2⟩
  | case5 x xs hw =>
    rw [next.eq_def] at h
    simp [hw] at h
    obtain ⟨h1, -⟩ := h
    subst h1
    exact absurd hv hw

/-- Every item emitted by the single backward step is drawn either from the
stack (which holds only non-tombstones) or from a position checked not to be a
weak tombstone. -/
theorem next_back_rev_not_weak_aux (stack l : List InternalValue) :
    ∀ v rest, (∀ s ∈ stack, s.key.value_type ≠ ValueType.WeakTombstone) →
      next_back_rev stack l = some (v, rest) →
      v.key.value_type ≠ ValueType.WeakTombstone := by
  induction stack, l using next_back_rev.induct with
  | case1 stack =>
    intro v rest hstack h
    simp [next_back_rev] at h
  | case2 x hw =>
    intro v rest hstack h
    simp [next_back_rev, hw] at h
  | case3 x hw w ws =>
    intro v rest hstack h
    simp [next_back_rev, hw] at h
    obtain ⟨h1, -⟩ := h
    subst h1
    exact hstack w (by simp)
  | case4 stack x hw =>
    intro v rest hstack h
    simp [next_back_rev, hw] at h
    obtain ⟨h1, -⟩ := h
    subst h1
    exact hw
  | case5 x x1 xs hlt hw w ws =>
    intro v rest hstack h
    simp [next_back_rev, hlt, hw] at h
    obtain ⟨h1, -⟩ := h
    subst h1
    exact hstack w (by simp)
  | case6 x x1 xs hlt hw ih =>
    intro v rest hstack h
    rw [show next_back_rev [] (x :: x1 :: xs) = next_back_rev [] (x1 :: xs) from by
      simp [next_back_rev, hlt, hw]] at h
    exact ih v rest (by simp) h
  | case7 stack x x1 xs hlt hw =>
    intro v rest hstack h
    simp [next_back_rev, hlt, hw] at h
    obtain ⟨h1, -⟩ := h
    subst h1
    exact hw
  | case8 stack x x1 xs hlt stack1 stack2 ih =>
    intro v rest hstack h
    rw [show next_back_rev stack (x :: x1 :: xs) =
        next_back_rev
          (if x1.key.value_type = ValueType.WeakTombstone then
            (if x.is_tombstone then stack else x :: stack).tail
          else if x.is_tombstone then stack else x :: stack) (x1 :: xs) from by
      simp only [next_back_rev, if_neg hlt]] at h
    have hstack1 : ∀ s ∈ (if x.is_tombstone then stack else x :: stack),
        s.key.value_type ≠ ValueType.WeakTombstone := by
      intro s hs
      split at hs
      · exact hstack s hs
      · rcases List.mem_cons.mp hs with h1 | h1
        · subst h1
          rename_i hx
          intro hxw
          simp [InternalValue.is_tombstone, hxw] at hx
        · exact hstack s h1
    refine ih v rest ?_ h
    intro s hs
    have hs2 : s ∈ (if x1.key.value_type = ValueType.WeakTombstone then
        (if x.is_tombstone then stack else x :: stack).tail
      else if x.is_tombstone then stack else x :: stack) := hs
    split at hs2
    · exact hstack1 s (List.mem_of_mem_tail hs2)
    · exact hstack1 s hs2

theorem next_back_rev_not_weak {stack l rest : List InternalValue} {v : InternalValue}
    (hstack : ∀ s ∈ stack, s.key.value_type ≠ ValueType.WeakTombstone)
    (h : next_back_rev stack l = some (v, rest)) :
    v.key.value_type ≠ ValueType.WeakTombstone :=
  next_back_rev_not_weak_aux stack l v rest hstack h

/-- Lifting `next_back_rev_not_weak` to the full backward run. -/
theorem backwardListRev_not_weak (rl : List InternalValue) :
    ∀ v ∈ backwardListRev rl, v.key.value_type ≠ ValueType.WeakTombstone := by
  induction rl using backwardListRev.induct with
  | case1 rl hnone =>
    intro v hv
    rw [backwardListRev_eq_nil hnone] at hv
    simp at hv
  | case2 rl w rest hsome ih =>
    intro v hv
    rw [backwardListRev_eq_cons hsome] at hv
    rcases List.mem_cons.mp hv with h1 | h1
    · subst h1
      exact next_back_rev_not_weak (by simp) hsome
    · exact ih v h1

section ConcreteStreams

/-- A single weak tombstone for user key `a` (byte 97). -/
def wLone : InternalValue := ⟨⟨[97], 0, ValueType.WeakTombstone⟩, []⟩

/-- The weak tombstone `(a, ·, seqno 2, WeakTombstone)` of scenario S3. -/
def wA2 : InternalValue := ⟨⟨[97], 2, ValueType.WeakTombstone⟩, []⟩

/-- The value `(a, β, seqno 1, Value)` of scenario S3. -/
def vB1 : InternalValue := ⟨⟨[97], 1, ValueType.Value⟩, [2]⟩

/-- The value `(a, α, seqno 0, Value)` of scenario S3. -/
def vA0 : InternalValue := ⟨⟨[97], 0, ValueType.Value⟩, [1]⟩

theorem forwardList_wLone : forwardList [wLone] = [wLone] := by
  rw [@forwardList_eq_cons [wLone] [] wLone (by simp [next, wLone]),
    forwardList_eq_nil (by simp [next])]

theorem backwardList_wLone : backwardList [wLone] = [] := by
  unfold backwardList
  rw [show ([wLone] : List InternalValue).reverse = [wLone] from rfl,
    backwardListRev_eq_nil (by simp [next_back_rev, wLone])]

end ConcreteStreams

theorem forwardList_congr {l l' : List InternalValue} (h : next l = next l') :
    forwardList l = forwardList l' := by
  cases hnl : next l' with
  | none => rw [forwardList_eq_nil (h.trans hnl), forwardList_eq_nil hnl]
  | some p =>
    obtain ⟨v, r⟩ := p
    rw [forwardList_eq_cons (h.trans hnl), forwardList_eq_cons hnl]

/-- Forward iteration can emit a weak tombstone only as the very last item of
the input stream. -/
theorem forwardList_weak_only_last (l : List InternalValue) :
    ∀ v ∈ forwardList l, v.key.value_type = ValueType.WeakTombstone →
      l.getLast? = some v := by
  induction l using forwardList.induct with
  | case1 l hnone =>
    intro v hv
    rw [forwardList_eq_nil hnone] at hv
    simp at hv
  | case2 l w rest hsome ih =>
    intro v hv hweak
    rw [forwardList_eq_cons hsome] at hv
    rcases List.mem_cons.mp hv with h1 | h1
    · subst h1
      exact (next_weak_last hsome hweak).1
    · have hlast := ih v h1 hweak
      have hne : rest ≠ [] := by
        intro hrest
        subst hrest
        simp at hlast
      obtain ⟨t, ht⟩ := next_suffix hsome
      rw [← ht, List.getLast?_append_of_ne_nil _ hne]
      exact hlast

/-- Claim C1: the code violates the forward/backward multiset invariant. On the
sorted single-item stream holding one weak tombstone, forward iteration emits
the weak tombstone (`next` returns `Some(Ok(head))` when the peek after a weak
tombstone is `None`), while backward iteration emits nothing (`next_back` pops
the empty candidate stack and returns `None`), so the two runs do not produce
the same multiset of items. -/
theorem mvcc_forward_backward_multiset_divergence :
    forwardList [wLone] = [wLone] ∧ backwardList [wLone] = [] ∧
    (forwardList [wLone] : Multiset InternalValue) ≠
      (backwardList [wLone] : Multiset InternalValue) := by
  refine ⟨forwardList_wLone, backwardList_wLone, ?_⟩
  rw [forwardList_wLone, backwardList_wLone]
  simp

/-- Claim C2 (counterexample): when the weak tombstone is the last remaining
item, `MvccStream::next` emits the weak tombstone itself instead of dropping
it, refuting "a WeakTombstone is never itself emitted by forward iteration". -/
theorem mvcc_forward_emits_weak_tombstone_at_stream_end :
    forwardList [wLone] = [wLone] ∧
    wLone.key.value_type = ValueType.WeakTombstone :=
  ⟨forwardList_wLone, rfl⟩

/-- Claim C2 (amended): whenever the head of the stream is a WeakTombstone, if
a next item exists with the same user key and value type Value, both are erased
from the output; if a next item exists otherwise, the weak tombstone is dropped
and iteration continues; and a WeakTombstone is emitted by forward iteration
only when it is the last item of the input stream. -/
theorem mvcc_forward_weak_tombstone_rules_amended :
    (∀ (head nxt : InternalValue) (rest2 : List InternalValue),
        head.key.value_type = ValueType.WeakTombstone →
        nxt.key.value_type = ValueType.Value →
        nxt.key.user_key = head.key.user_key →
        forwardList (head :: nxt :: rest2) = forwardList rest2) ∧
    (∀ (head nxt : InternalValue) (rest2 : List InternalValue),
        head.key.value_type = ValueType.WeakTombstone →
        ¬(nxt.key.value_type = ValueType.Value ∧
          nxt.key.user_key = head.key.user_key) →
        forwardList (head :: nxt :: rest2) = forwardList (nxt :: rest2)) ∧
    (∀ (l : List InternalValue), ∀ v ∈ forwardList l,
        v.key.value_type = ValueType.WeakTombstone → l.getLast? = some v) := by
  refine ⟨?_, ?_, forwardList_weak_only_last⟩
  · intro head nxt rest2 hw hv hk
    exact forwardList_congr (by simp [next, hw, hv, hk])
  · intro head nxt rest2 hw hnv
    exact forwardList_congr (by simp [next, hw, hnv])

theorem mvcc_forward_weak_tombstone_rules_amended_witness :
    forwardList [wA2, vB1] = forwardList ([] : List InternalValue) ∧
    forwardList [wA2, wLone] = forwardList [wLone] ∧
    ([wLone] : List InternalValue).getLast? = some wLone := by
  refine ⟨mvcc_forward_weak_tombstone_rules_amended.1 wA2 vB1 [] rfl rfl rfl,
    mvcc_forward_weak_tombstone_rules_amended.2.1 wA2 wLone [] rfl (by decide),
    mvcc_forward_weak_tombstone_rules_amended.2.2 [wLone] wLone ?_ rfl⟩
  rw [forwardList_wLone]
  simp

/-- Claim C3: on the scenario S3 stream `(a,·,2,W), (a,β,1,V), (a,α,0,V)` in
InternalKey order, the MVCC stream emits exactly the single item `(a,α,0,V)`
forward and backward: the weak tombstone cancels exactly the one newer value
and the older value becomes visible. -/
theorem mvcc_weak_tombstone_single_delete_s3 :
    forwardList [wA2, vB1, vA0] = [vA0] ∧ backwardList [wA2, vB1, vA0] = [vA0] := by
  constructor
  · rw [@forwardList_eq_cons [wA2, vB1, vA0] [] vA0
      (by simp [next, wA2, vB1, vA0, drain_key_min]),
      forwardList_eq_nil (by simp [next])]
  · unfold backwardList
    rw [show ([wA2, vB1, vA0] : List InternalValue).reverse = [vA0, vB1, wA2] from rfl,
      @backwardListRev_eq_cons [vA0, vB1, wA2] [] vA0
        (by simp [next_back_rev, wA2, vB1, vA0, ukLt, InternalValue.is_tombstone]),
      backwardListRev_eq_nil (by simp [next_back_rev])]

/-- Claim C9: no item yielded by `MvccStream::next_back` has value type
WeakTombstone: the candidate stack only ever holds non-tombstone values, and a
weak tombstone found at a key boundary or at the start of the stream is never
returned by backward iteration. (Proved for every input stream, a fortiori for
the sorted ones.) -/
theorem mvcc_next_back_never_yields_weak_tombstone :
    ∀ (l : List InternalValue), ∀ v ∈ backwardList l,
      v.key.value_type ≠ ValueType.WeakTombstone := by
  intro l v hv
  exact backwardListRev_not_weak l.reverse v hv

theorem mvcc_next_back_never_yields_weak_tombstone_witness :
    vA0 ∈ backwardList [vA0] ∧ vA0.key.value_type ≠ ValueType.WeakTombstone := by
  have hmem : vA0 ∈ backwardList [vA0] := by
    unfold backwardList
    rw [show ([vA0] : List InternalValue).reverse = [vA0] from rfl,
      @backwardListRev_eq_cons [vA0] [] vA0 (by simp [next_back_rev, vA0]),
      backwardListRev_eq_nil (by simp [next_back_rev])]
    simp
  exact ⟨hmem, mvcc_next_back_never_yields_weak_tombstone [vA0] vA0 hmem⟩

end MvccStream

namespace MultiReader

/-- `MultiReader::next`: the deque of readers is a list of lists, each reader
embedded as the list of its remaining items (front of the deque first). If the
front reader yields an item, return it; an exhausted front reader is popped and
iteration proceeds with the next reader; an empty deque yields `none`. -/
def next {α : Type} : List (List α) → Option (α × List (List α))
  | [] => none
  | [] :: rs => next rs
  | (x :: xs) :: rs => some (x, xs :: rs)

/-- `MultiReader::next_back`: the mirror of `next` on the back end. The back of
the deque is the front of the reversed deque, and popping the last item of a
reader is taking the head of that reader's reversal, so `next_back` is `next`
on the reversed representation, mapped back. -/
def next_back {α : Type} (d : List (List α)) : Option (α × List (List α)) :=
  match next ((d.map List.reverse).reverse) with
  | none => none
  | some (x, r) => some (x, (r.map List.reverse).reverse)

theorem next_eq_none {α : Type} {d : List (List α)} (h : next d = none) :
    d.flatten = [] := by
  induction d with
  | nil => simp
  | cons r rs ih =>
    match r with
    | [] =>
      simp only [next] at h
      simp [ih h]
    | x :: xs => simp [next] at h

theorem next_eq_some {α : Type} {d d2 : List (List α)} {x : α}
    (h : next d = some (x, d2)) : d.flatten = x :: d2.flatten := by
  induction d generalizing d2 with
  | nil => simp [next] at h
  | cons r rs ih =>
    match r with
    | [] =>
      simp only [next] at h
      simp [ih h]
    | y :: ys =>
      simp only [next, Option.some.injEq, Prod.mk.injEq] at h
      obtain ⟨h1, h2⟩ := h
      subst h1
      subst h2
      simp

theorem next_back_eq_none {α : Type} {d : List (List α)} (h : next_back d = none) :
    d.flatten = [] := by
  unfold next_back at h
  cases hn : next ((d.map List.reverse).reverse) with
  | none =>
    have := next_eq_none hn
    rw [← List.reverse_flatten] at this
    simpa using congrArg List.reverse this
  | some p => rw [hn] at h; simp at h

theorem next_back_eq_some {α : Type} {d d2 : List (List α)} {x : α}
    (h : next_back d = some (x, d2)) : d.flatten = d2.flatten ++ [x] := by
  unfold next_back at h
  cases hn : next ((d.map List.reverse).reverse) with
  | none => rw [hn] at h; simp at h
  | some p =>
    obtain ⟨y, r⟩ := p
    rw [hn] at h
    simp only [Option.some.injEq, Prod.mk.injEq] at h
    obtain ⟨h1, h2⟩ := h
    subst h1
    subst h2
    have := next_eq_some hn
    rw [← List.reverse_flatten] at this
    have h3 := congrArg List.reverse this
    simp only [List.reverse_reverse, List.reverse_cons] at h3
    rw [h3, ← List.reverse_flatten]

/-- Full forward consumption of the multi reader. -/
def forwardList {α : Type} (d : List (List α)) : List α :=
  match h : next d with
  | none => []
  | some (x, d2) => x :: forwardList d2
termination_by d.flatten.length
decreasing_by simp [next_eq_some h]

/-- Full backward consumption of the multi reader, in call order. -/
def backwardList {α : Type} (d : List (List α)) : List α :=
  match h : next_back d with
  | none => []
  | some (x, d2) => x :: backwardList d2
termination_by d.flatten.length
decreasing_by simp [next_back_eq_some h]

/-- Interleaved consumption: for each direction in `ds` (`true` = `next()`,
`false` = `next_back()`), perform one call; collect the forward outputs and the
backward outputs in call order, and return them with the final state. -/
def run {α : Type} (d : List (List α)) : List Bool → (List α × List α × List (List α))
  | [] => ([], [], d)
  | dir :: ds =>
    if dir then
      match next d with
      | none => run d ds
      | some (x, d2) =>
        let r := run d2 ds
        (x :: r.1, r.2.1, r.2.2)
    else
      match next_back d with
      | none => run d ds
      | some (x, d2) =>
        let r := run d2 ds
        (r.1, x :: r.2.1, r.2.2)

theorem mrForwardList_eq_cons {α : Type} {d d2 : List (List α)} {x : α}
    (h : next d = some (x, d2)) : forwardList d = x :: forwardList d2 := by
  conv_lhs => unfold forwardList
  rw [h]

theorem mrForwardList_eq_nil {α : Type} {d : List (List α)} (h : next d = none) :
    forwardList d = [] := by
  unfold forwardList
  rw [h]

theorem mrBackwardList_eq_cons {α : Type} {d d2 : List (List α)} {x : α}
    (h : next_back d = some (x, d2)) : backwardList d = x :: backwardList d2 := by
  conv_lhs => unfold backwardList
  rw [h]

theorem mrBackwardList_eq_nil {α : Type} {d : List (List α)} (h : next_back d = none) :
    backwardList d = [] := by
  unfold backwardList
  rw [h]

theorem forwardList_eq_flatten {α : Type} (d : List (List α)) :
    forwardList d = d.flatten := by
  induction d using forwardList.induct with
  | case1 d hnone =>
    rw [mrForwardList_eq_nil hnone, next_eq_none hnone]
  | case2 d x d2 hsome ih =>
    rw [mrForwardList_eq_cons hsome, next_eq_some hsome, ih]

theorem backwardList_eq_flatten_reverse {α : Type} (d : List (List α)) :
    backwardList d = d.flatten.reverse := by
  induction d using backwardList.induct with
  | case1 d hnone =>
    rw [mrBackwardList_eq_nil hnone, next_back_eq_none hnone]
    simp
  | case2 d x d2 hsome ih =>
    rw [mrBackwardList_eq_cons hsome, next_back_eq_some hsome, ih]
    simp

theorem run_partition {α : Type} (ds : List Bool) :
    ∀ d : List (List α),
      (run d ds).1 ++ (run d ds).2.2.flatten ++ (run d ds).2.1.reverse = d.flatten := by
  induction ds with
  | nil => intro d; simp [run]
  | cons dir ds ih =>
    intro d
    by_cases hdir : dir
    · subst hdir
      simp only [run, if_pos trivial]
      cases hn : next d with
      | none => simpa using ih d
      | some p =>
        obtain ⟨x, d2⟩ := p
        simp only []
        rw [next_eq_some hn]
        have := ih d2
        simp only [List.cons_append]
        rw [this]
    · simp only [run, if_neg hdir]
      cases hn : next_back d with
      | none => simpa using ih d
      | some p =>
        obtain ⟨x, d2⟩ := p
        simp only []
        rw [next_back_eq_some hn]
        have := ih d2
        simp only [List.reverse_cons, ← List.append_assoc] at *
        rw [this]

/-- Claim C10: `MultiReader` forward iteration yields exactly the concatenation
of the readers' items in front-to-back order, backward iteration yields the
reverse concatenation, and under any interleaving of `next()` and `next_back()`
calls the forward outputs, the remaining items and the reversed backward
outputs partition the concatenation — so each underlying item is yielded at
most once until the two ends meet, with exhausted readers removed. -/
theorem multi_reader_forward_backward_interleaved {α : Type} (d : List (List α)) :
    forwardList d = d.flatten ∧
    backwardList d = d.flatten.reverse ∧
    ∀ ds : List Bool,
      (run d ds).1 ++ (run d ds).2.2.flatten ++ (run d ds).2.1.reverse = d.flatten :=
  ⟨forwardList_eq_flatten d, backwardList_eq_flatten_reverse d,
    fun ds => run_partition ds d⟩

end MultiReader

namespace Coding

/-- Byte stream written by `write_u8` (a byte is a `Nat` below 256; the write
masks to the low 8 bits exactly as storing into a `u8` does). -/
def writeU8 (n : Nat) : List Nat := [n % 256]

/-- Byte stream written by `write_u32::<BigEndian>`. -/
def writeU32BE (n : Nat) : List Nat :=
  [n / 2 ^ 24 % 256, n / 2 ^ 16 % 256, n / 2 ^ 8 % 256, n % 256]

/-- Byte stream written by `write_u64::<BigEndian>`. -/
def writeU64BE (n : Nat) : List Nat :=
  [n / 2 ^ 56 % 256, n / 2 ^ 48 % 256, n / 2 ^ 40 % 256, n / 2 ^ 32 % 256,
    n / 2 ^ 24 % 256, n / 2 ^ 16 % 256, n / 2 ^ 8 % 256, n % 256]

/-- `read_u8`: one byte from the reader, or end-of-input. -/
def readU8 : List Nat → Option (Nat × List Nat)
  | [] => none
  | b :: rest => some (b, rest)

/-- `read_u32::<BigEndian>`. -/
def readU32BE : List Nat → Option (Nat × List Nat)
  | b0 :: b1 :: b2 :: b3 :: rest =>
    some (((b0 * 256 + b1) * 256 + b2) * 256 + b3, rest)
  | _ => none

/-- `read_u64::<BigEndian>`. -/
def readU64BE : List Nat → Option (Nat × List Nat)
  | b0 :: b1 :: b2 :: b3 :: b4 :: b5 :: b6 :: b7 :: rest =>
    some (((((((b0 * 256 + b1) * 256 + b2) * 256 + b3) * 256 + b4) * 256 + b5) * 256
      + b6) * 256 + b7, rest)
  | _ => none

/-- `read_exact` into a buffer of `n` bytes. -/
def read_exact (n : Nat) (l : List Nat) : Option (List Nat × List Nat) :=
  if n ≤ l.length then some (l.take n, l.drop n) else none

/-- `ValueHandle` from the value log: `(segment_id: u64, offset: u64)`,
fields as `Nat` with their width constraints carried by `wellFormed`. -/
structure ValueHandle where
  offset : Nat
  segment_id : Nat
deriving DecidableEq, Repr

/-- `MaybeInlineValue`: inlined bytes, or a value-log handle plus size. -/
inductive MaybeInlineValue where
  | Inline (bytes : List Nat)
  | Indirect (vhandle : ValueHandle) (size : Nat)
deriving DecidableEq, Repr

def TAG_INLINE : Nat := 0

def TAG_INDIRECT : Nat := 1

/-- `ValueHandle::encode_into`: offset then segment id, both big-endian u64. -/
def ValueHandle.encode_into (h : ValueHandle) : List Nat :=
  writeU64BE h.offset ++ writeU64BE h.segment_id

/-- `ValueHandle::decode_from`. -/
def ValueHandle.decode_from (l : List Nat) : Option (ValueHandle × List Nat) :=
  match readU64BE l with
  | none => none
  | some (offset, l1) =>
    match readU64BE l1 with
    | none => none
    | some (seg, l2) => some (⟨offset, seg⟩, l2)

/-- `MaybeInlineValue::encode_into`. The inline length is written as
`bytes.len() as u32`, i.e. truncated modulo `2 ^ 32`. -/
def MaybeInlineValue.encode_into : MaybeInlineValue → List Nat
  | .Inline bytes =>
    writeU8 TAG_INLINE ++ writeU32BE (bytes.length % 2 ^ 32) ++ bytes
  | .Indirect vhandle size =>
    writeU8 TAG_INDIRECT ++ vhandle.encode_into ++ writeU32BE size

/-- `MaybeInlineValue::decode_from`: tag byte, then the variant body; an
unknown tag is an `InvalidTag` error, modelled as `none`. -/
def MaybeInlineValue.decode_from (l : List Nat) : Option (MaybeInlineValue × List Nat) :=
  match readU8 l with
  | none => none
  | some (tag, l1) =>
    if tag = TAG_INLINE then
      match readU32BE l1 with
      | none => none
      | some (len, l2) =>
        match read_exact len l2 with
        | none => none
        | some (bytes, l3) => some (.Inline bytes, l3)
    else if tag = TAG_INDIRECT then
      match ValueHandle.decode_from l1 with
      | none => none
      | some (vhandle, l2) =>
        match readU32BE l2 with
        | none => none
        | some (size, l3) => some (.Indirect vhandle size, l3)
    else none

/-- The wire layout exactly as the spec states it:
`0x00 || len:u32 || bytes[len]` for inline and
`0x01 || offset:u64 || segment_id:u64 || size:u32` for indirect. -/
def specLayout : MaybeInlineValue → List Nat
  | .Inline bytes => 0 :: (writeU32BE bytes.length ++ bytes)
  | .Indirect vhandle size =>
    1 :: (writeU64BE vhandle.offset ++ writeU64BE vhandle.segment_id ++ writeU32BE size)

/-- The field widths of the Rust types: values hold at most `2 ^ 32 - 1` bytes,
handles are `u64` pairs, sizes are `u32`. -/
def wellFormed : MaybeInlineValue → Prop
  | .Inline bytes => bytes.length < 2 ^ 32
  | .Indirect vhandle size =>
    vhandle.offset < 2 ^ 64 ∧ vhandle.segment_id < 2 ^ 64 ∧ size < 2 ^ 32

theorem readU32BE_writeU32BE {n : Nat} (r : List Nat) (h : n < 2 ^ 32) :
    readU32BE (writeU32BE n ++ r) = some (n, r) := by
  simp only [writeU32BE, List.cons_append, List.nil_append, readU32BE,
    Option.some.injEq, Prod.mk.injEq]
  refine ⟨?_, trivial⟩
  omega

theorem readU64BE_writeU64BE {n : Nat} (r : List Nat) (h : n < 2 ^ 64) :
    readU64BE (writeU64BE n ++ r) = some (n, r) := by
  simp only [writeU64BE, List.cons_append, List.nil_append, readU64BE,
    Option.some.injEq, Prod.mk.injEq]
  refine ⟨?_, trivial⟩
  omega

theorem readU32BE_writeU32BE_self {n : Nat} (h : n < 2 ^ 32) :
    readU32BE (writeU32BE n) = some (n, []) := by
  have := @readU32BE_writeU32BE n [] h
  simpa using this

theorem read_exact_self (l : List Nat) : read_exact l.length l = some (l, []) := by
  simp [read_exact]

/-- Claim C8: decoding the bytes of an encoded `MaybeInlineValue` yields the
value back with nothing left over, and the encoding is exactly the tagged
big-endian layout stated by the spec. -/
theorem maybe_inline_value_roundtrip_and_layout (v : MaybeInlineValue)
    (hv : wellFormed v) :
    MaybeInlineValue.decode_from (MaybeInlineValue.encode_into v) = some (v, []) ∧
    MaybeInlineValue.encode_into v = specLayout v := by
  cases v with
  | Inline bytes =>
    have hlen : bytes.length % 2 ^ 32 = bytes.length := Nat.mod_eq_of_lt hv
    have e1 : MaybeInlineValue.encode_into (MaybeInlineValue.Inline bytes) =
        0 :: (writeU32BE bytes.length ++ bytes) := by
      rw [MaybeInlineValue.encode_into, hlen]
      rfl
    constructor
    · rw [e1]
      rw [show MaybeInlineValue.decode_from (0 :: (writeU32BE bytes.length ++ bytes)) =
          (match readU32BE (writeU32BE bytes.length ++ bytes) with
           | none => none
           | some (len, l2) =>
             match read_exact len l2 with
             | none => none
             | some (bs, l3) => some (MaybeInlineValue.Inline bs, l3)) from rfl]
      rw [readU32BE_writeU32BE bytes hv]
      simp only []
      rw [read_exact_self]
    · rw [e1]
      rfl
  | Indirect vh size =>
    obtain ⟨h1, h2, h3⟩ := hv
    have e1 : MaybeInlineValue.encode_into (MaybeInlineValue.Indirect vh size) =
        1 :: (writeU64BE vh.offset ++ (writeU64BE vh.segment_id ++ writeU32BE size)) := by
      rw [MaybeInlineValue.encode_into]
      simp [writeU8, TAG_INDIRECT, ValueHandle.encode_into]
    constructor
    · rw [e1]
      rw [show MaybeInlineValue.decode_from
          (1 :: (writeU64BE vh.offset ++ (writeU64BE vh.segment_id ++ writeU32BE size))) =
          (match ValueHandle.decode_from
              (writeU64BE vh.offset ++ (writeU64BE vh.segment_id ++ writeU32BE size)) with
           | none => none
           | some (vhandle, l2) =>
             match readU32BE l2 with
             | none => none
             | some (sz, l3) => some (MaybeInlineValue.Indirect vhandle sz, l3)) from rfl]
      rw [ValueHandle.decode_from]
      rw [readU64BE_writeU64BE _ h1]
      simp only []
      rw [readU64BE_writeU64BE _ h2]
      simp only []
      rw [readU32BE_writeU32BE_self h3]
    · rw [e1]
      simp [specLayout, List.append_assoc]

theorem maybe_inline_value_roundtrip_and_layout_witness :
    (wellFormed (MaybeInlineValue.Inline [7, 8]) ∧
      MaybeInlineValue.decode_from
        (MaybeInlineValue.encode_into (MaybeInlineValue.Inline [7, 8])) =
        some (MaybeInlineValue.Inline [7, 8], []) ∧
      MaybeInlineValue.encode_into (MaybeInlineValue.Inline [7, 8]) =
        specLayout (MaybeInlineValue.Inline [7, 8])) ∧
    (wellFormed (MaybeInlineValue.Indirect ⟨3, 5⟩ 9) ∧
      MaybeInlineValue.decode_from
        (MaybeInlineValue.encode_into (MaybeInlineValue.Indirect ⟨3, 5⟩ 9)) =
        some (MaybeInlineValue.Indirect ⟨3, 5⟩ 9, []) ∧
      MaybeInlineValue.encode_into (MaybeInlineValue.Indirect ⟨3, 5⟩ 9) =
        specLayout (MaybeInlineValue.Indirect ⟨3, 5⟩ 9)) := by
  have hin : wellFormed (MaybeInlineValue.Inline [7, 8]) := by
    simp [wellFormed]
  have hind : wellFormed (MaybeInlineValue.Indirect ⟨3, 5⟩ 9) := by
    constructor
    · norm_num
    constructor
    · norm_num
    · norm_num
  exact ⟨⟨hin, (maybe_inline_value_roundtrip_and_layout _ hin).1,
      (maybe_inline_value_roundtrip_and_layout _ hin).2⟩,
    ⟨hind, (maybe_inline_value_roundtrip_and_layout _ hind).1,
      (maybe_inline_value_roundtrip_and_layout _ hind).2⟩⟩

end Coding

namespace Compaction

/-- Observable effects of the compaction worker, in program order. -/
inductive Event where
  | hideSegments (ids : List Nat)
  | createWriter (evictTombstones : Bool)
  | writeItem
  | installSegment (id : Nat)
  | removeFromManifest (id : Nat)
  | persistManifest (levels : List (List Nat))
  | deleteSegmentFolder (id : Nat)
  | removeDescriptor (id : Nat)
  | showSegments (ids : List Nat)
deriving DecidableEq, Repr

/-- Modelled from the spec: the level manifest state (§4.J) the worker
manipulates; the manifest module itself is not among the provided sources.
`levels` lists segment ids per level; `hidden` holds the ids currently hidden
from readers. -/
structure LevelManifest where
  levels : List (List Nat)
  hidden : List Nat
deriving DecidableEq, Repr

/-- Modelled from the spec: `hide_segments` marks segments invisible to
readers without removing them. -/
def LevelManifest.hide_segments (m : LevelManifest) (ids : List Nat) : LevelManifest :=
  { m with hidden := m.hidden ++ ids }

/-- Modelled from the spec: `show_segments` is the rollback inverse of
`hide_segments`. -/
def LevelManifest.show_segments (m : LevelManifest) (ids : List Nat) : LevelManifest :=
  { m with hidden := m.hidden.filter (fun x => decide (x ∉ ids)) }

/-- Modelled from the spec: the index of the last level of the manifest
(levels are `L0 … Ln`). -/
def LevelManifest.last_level_index (m : LevelManifest) : Nat :=
  m.levels.length - 1

/-- Modelled from the spec: insert a segment into level `i`. -/
def LevelManifest.insert_into_level (m : LevelManifest) (i : Nat) (id : Nat) :
    LevelManifest :=
  { m with levels := m.levels.set i (id :: m.levels.getD i []) }

/-- Modelled from the spec: remove a segment id from whatever level holds it. -/
def LevelManifest.remove (m : LevelManifest) (id : Nat) : LevelManifest :=
  { m with levels := m.levels.map (fun lvl => lvl.filter (fun x => decide (x ≠ id))) }

/-- `compaction::Input` (the `DoCompact` payload). -/
structure Input where
  segment_ids : List Nat
  dest_level : Nat
  target_size : Nat
deriving DecidableEq, Repr

/-- The merge loop of `merge_segments`: write each item, and after writing item
`idx` check the stop signal when `idx % 100_000 == 0`; when it is set, stop.
Returns the write events and whether the loop aborted. -/
def writeLoop (sig : Nat → Bool) : Nat → List InternalValue → (List Event × Bool)
  | _, [] => ([], false)
  | idx, _ :: rest =>
    if idx % 100000 = 0 ∧ sig idx = true then ([Event.writeItem], true)
    else
      let r := writeLoop sig (idx + 1) rest
      (Event.writeItem :: r.1, r.2)

/-- The outcome of `merge_segments`: whether the stop signal aborted the merge,
the final in-memory manifest, and the effect trace. In the error-free model
both paths return `Ok(())`, so the result is total. -/
structure MergeResult where
  stopped : Bool
  manifest : LevelManifest
  events : List Event
deriving DecidableEq, Repr

/-- `merge_segments`, embedded as its observable effect trace over an
error-free run. The merged stream is `items`; `sig idx` samples the stop
signal at the check after writing item `idx`; `newIds` are the ids the
segment id generator hands to the multi writer for the created segments.
Program order follows the source: read `last_level_index`, `hide_segments`,
create the multi writer with `evict_tombstones = (dest_level == last_level)`,
run the merge loop (early `Ok(())` return on stop, with nothing rolled back),
then install created segments, remove the inputs, persist the manifest,
delete the input folders, drop their descriptors, and `show_segments`. -/
def merge_segments (m : LevelManifest) (payload : Input)
    (items : List InternalValue) (sig : Nat → Bool) (newIds : List Nat) :
    MergeResult :=
  let last_level := m.last_level_index
  let m1 := m.hide_segments payload.segment_ids
  let is_last_level := decide (payload.dest_level = last_level)
  let should_evict_tombstones := is_last_level
  let evs0 := [Event.hideSegments payload.segment_ids,
    Event.createWriter should_evict_tombstones]
  let loop := writeLoop sig 0 items
  if loop.2 then
    { stopped := true, manifest := m1, events := evs0 ++ loop.1 }
  else
    let m2 := newIds.foldl (fun acc id => acc.insert_into_level payload.dest_level id) m1
    let m3 := payload.segment_ids.foldl (fun acc id => acc.remove id) m2
    let m4 := m3.show_segments payload.segment_ids
    { stopped := false, manifest := m4,
      events := evs0 ++ loop.1
        ++ newIds.map Event.installSegment
        ++ payload.segment_ids.map Event.removeFromManifest
        ++ [Event.persistManifest m3.levels]
        ++ payload.segment_ids.map Event.deleteSegmentFolder
        ++ payload.segment_ids.map Event.removeDescriptor
        ++ [Event.showSegments payload.segment_ids] }

/-- `drop_segments` (the `DeleteSegments` path), embedded as its manifest
update and effect trace: remove each segment from the manifest, persist,
then delete the folders and drop the descriptors. -/
def drop_segments (m : LevelManifest) (segment_ids : List Nat) :
    LevelManifest × List Event :=
  let m1 := segment_ids.foldl (fun acc id => acc.remove id) m
  (m1, segment_ids.map Event.removeFromManifest
    ++ [Event.persistManifest m1.levels]
    ++ segment_ids.map Event.deleteSegmentFolder
    ++ segment_ids.map Event.removeDescriptor)

def Event.isPersist : Event → Bool
  | .persistManifest _ => true
  | _ => false

def Event.isDeleteFolder : Event → Bool
  | .deleteSegmentFolder _ => true
  | _ => false

/-- A manifest-commit event: installing a segment, removing a segment from the
manifest, or persisting the manifest to disk. -/
def Event.isCommit : Event → Bool
  | .installSegment _ => true
  | .removeFromManifest _ => true
  | .persistManifest _ => true
  | _ => false

def Event.isCreateWriter : Event → Bool
  | .createWriter _ => true
  | _ => false

/-- The folder-deletion events occurring before the first manifest persist. -/
def deletesBeforeFirstPersist (tr : List Event) : List Event :=
  (tr.takeWhile (fun e => !e.isPersist)).filter Event.isDeleteFolder

/-- The level contents written by the first manifest persist, if any. -/
def firstPersistedLevels (tr : List Event) : Option (List (List Nat)) :=
  match tr.find? Event.isPersist with
  | some (Event.persistManifest lv) => some lv
  | _ => none

/-- Whether the first persisted manifest (if any) excludes every given id. -/
def manifestExcludes (tr : List Event) (ids : List Nat) : Bool :=
  match firstPersistedLevels tr with
  | none => true
  | some lv => ids.all fun id => decide (id ∉ lv.flatten)

/-- The evict-tombstones flag the segment writer was configured with. -/
def writerEvictFlag (tr : List Event) : Option Bool :=
  match tr.find? Event.isCreateWriter with
  | some (Event.createWriter b) => some b
  | _ => none

theorem writeLoop_events (sig : Nat → Bool) :
    ∀ (items : List InternalValue) (idx : Nat),
      ∀ e ∈ (writeLoop sig idx items).1, e = Event.writeItem := by
  intro items
  induction items with
  | nil => intro idx e he; simp [writeLoop] at he
  | cons x rest ih =>
    intro idx e he
    rw [writeLoop] at he
    split at he
    · simpa using he
    · rcases List.mem_cons.mp he with h1 | h1
      · exact h1
      · exact ih (idx + 1) e h1

theorem writeLoop_stopped_of_sig (sig : Nat → Bool) :
    ∀ (items : List InternalValue) (idx : Nat),
      (∃ j, j < items.length ∧ (idx + j) % 100000 = 0 ∧ sig (idx + j) = true) →
      (writeLoop sig idx items).2 = true := by
  intro items
  induction items with
  | nil =>
    intro idx h
    obtain ⟨j, hj, -⟩ := h
    simp at hj
  | cons x rest ih =>
    intro idx h
    rw [writeLoop]
    split
    · rfl
    · rename_i hc
      obtain ⟨j, hj, hmod, hsig⟩ := h
      match j, hj with
      | 0, hj =>
        exact absurd ⟨by simpa using hmod, by simpa using hsig⟩ hc
      | k + 1, hj =>
        refine ih (idx + 1) ⟨k, ?_, ?_, ?_⟩
        · simpa [Nat.lt_succ_iff] using Nat.lt_of_succ_lt_succ hj
        · rw [show idx + 1 + k = idx + (k + 1) from by omega]
          exact hmod
        · rw [show idx + 1 + k = idx + (k + 1) from by omega]
          exact hsig

theorem takeWhile_append_all {α : Type} (p : α → Bool) {A : List α} (B : List α)
    (h : ∀ a ∈ A, p a = true) :
    (A ++ B).takeWhile p = A ++ B.takeWhile p := by
  induction A with
  | nil => simp
  | cons a A ih =>
    simp only [List.cons_append, List.takeWhile_cons, h a (by simp), if_true]
    rw [ih fun x hx => h x (by simp [hx])]

theorem find?_append_none {α : Type} (p : α → Bool) {A : List α} (B : List α)
    (h : ∀ a ∈ A, p a = false) :
    (A ++ B).find? p = B.find? p := by
  induction A with
  | nil => simp
  | cons a A ih =>
    simp only [List.cons_append, List.find?_cons, h a (by simp)]
    exact ih fun x hx => h x (by simp [hx])

theorem remove_not_mem (m : LevelManifest) (id : Nat) :
    id ∉ (m.remove id).levels.flatten := by
  intro h
  simp only [LevelManifest.remove, List.mem_flatten, List.mem_map] at h
  obtain ⟨l, ⟨l0, hl0, rfl⟩, hmem⟩ := h
  simp [List.mem_filter] at hmem

theorem remove_preserves_not_mem {m : LevelManifest} {x : Nat} (id : Nat)
    (h : x ∉ m.levels.flatten) : x ∉ (m.remove id).levels.flatten := by
  intro hx
  apply h
  simp only [LevelManifest.remove, List.mem_flatten, List.mem_map] at hx
  obtain ⟨l, ⟨l0, hl0, rfl⟩, hmem⟩ := hx
  exact List.mem_flatten.mpr ⟨l0, hl0, (List.mem_filter.mp hmem).1⟩

theorem foldl_remove_preserves_not_mem :
    ∀ (ids : List Nat) (m : LevelManifest) (x : Nat), x ∉ m.levels.flatten →
      x ∉ (ids.foldl (fun acc id => acc.remove id) m).levels.flatten := by
  intro ids
  induction ids with
  | nil => intro m x h; simpa using h
  | cons i ids ih =>
    intro m x h
    exact ih (m.remove i) x (remove_preserves_not_mem i h)

theorem foldl_remove_not_mem :
    ∀ (ids : List Nat) (m : LevelManifest) (id : Nat), id ∈ ids →
      id ∉ (ids.foldl (fun acc id => acc.remove id) m).levels.flatten := by
  intro ids
  induction ids with
  | nil => intro m id h; simp at h
  | cons i ids ih =>
    intro m id h
    rcases List.mem_cons.mp h with h1 | h1
    · subst h1
      exact foldl_remove_preserves_not_mem ids (m.remove id) id (remove_not_mem m id)
    · exact ih (m.remove i) id h1

theorem trace_check {A B : List Event} {lv : List (List Nat)} {ids : List Nat}
    (hA : ∀ e ∈ A, e.isPersist = false ∧ e.isDeleteFolder = false)
    (hlv : ∀ id ∈ ids, id ∉ lv.flatten) :
    deletesBeforeFirstPersist (A ++ Event.persistManifest lv :: B) = [] ∧
    manifestExcludes (A ++ Event.persistManifest lv :: B) ids = true := by
  constructor
  · unfold deletesBeforeFirstPersist
    rw [takeWhile_append_all _ _ fun a ha => by simp [(hA a ha).1]]
    rw [show (Event.persistManifest lv :: B).takeWhile (fun e => !e.isPersist) = []
      from by simp [List.takeWhile_cons, Event.isPersist]]
    rw [List.append_nil]
    rw [List.filter_eq_nil_iff]
    intro a ha
    simp [(hA a ha).2]
  · unfold manifestExcludes firstPersistedLevels
    rw [find?_append_none _ _ fun a ha => (hA a ha).1]
    rw [show (Event.persistManifest lv :: B).find? Event.isPersist =
      some (Event.persistManifest lv) from by simp [List.find?, Event.isPersist]]
    simp only []
    rw [List.all_eq_true]
    intro id hid
    simpa using hlv id hid

theorem trace_check_no_persist {A : List Event}
    (hA : ∀ e ∈ A, e.isPersist = false ∧ e.isDeleteFolder = false) (ids : List Nat) :
    deletesBeforeFirstPersist A = [] ∧ manifestExcludes A ids = true := by
  constructor
  · unfold deletesBeforeFirstPersist
    rw [List.filter_eq_nil_iff]
    intro a ha
    simp [(hA a ((List.takeWhile_sublist _).subset ha)).2]
  · unfold manifestExcludes firstPersistedLevels
    rw [List.find?_eq_none.mpr fun a ha => by simp [(hA a ha).1]]

/-- The prefix of the merge trace before the persist event holds no persist
and no folder-deletion events. -/
theorem merge_prefix_clean (payload : Input) (sig : Nat → Bool)
    (items : List InternalValue) (newIds : List Nat) (b : Bool) :
    ∀ e ∈ ([Event.hideSegments payload.segment_ids, Event.createWriter b]
        ++ (writeLoop sig 0 items).1
        ++ newIds.map Event.installSegment
        ++ payload.segment_ids.map Event.removeFromManifest),
      e.isPersist = false ∧ e.isDeleteFolder = false := by
  intro e he
  simp only [List.mem_append] at he
  rcases he with ((he | he) | he) | he
  · rcases List.mem_cons.mp he with h1 | h1
    · subst h1; exact ⟨rfl, rfl⟩
    · rcases List.mem_cons.mp h1 with h2 | h2
      · subst h2; exact ⟨rfl, rfl⟩
      · simp at h2
  · rw [writeLoop_events sig items 0 e he]
    exact ⟨rfl, rfl⟩
  · obtain ⟨i, -, rfl⟩ := List.mem_map.mp he
    exact ⟨rfl, rfl⟩
  · obtain ⟨i, -, rfl⟩ := List.mem_map.mp he
    exact ⟨rfl, rfl⟩

/-- Claim C6: in both compaction paths — `merge_segments` (DoCompact) and
`drop_segments` (DeleteSegments) — no segment folder is deleted before the
first manifest persist, and the persisted manifest excludes every input
segment id: a segment is never deleted from disk before the manifest that
excludes it is durable. -/
theorem compaction_delete_only_after_durable_manifest
    (m : LevelManifest) (payload : Input) (items : List InternalValue)
    (sig : Nat → Bool) (newIds : List Nat) (m2 : LevelManifest) (ids : List Nat) :
    (deletesBeforeFirstPersist (merge_segments m payload items sig newIds).events = [] ∧
      manifestExcludes (merge_segments m payload items sig newIds).events
        payload.segment_ids = true) ∧
    (deletesBeforeFirstPersist (drop_segments m2 ids).2 = [] ∧
      manifestExcludes (drop_segments m2 ids).2 ids = true) := by
  constructor
  · cases hs : (writeLoop sig 0 items).2 with
    | true =>
      simp only [merge_segments, hs, if_true]
      refine trace_check_no_persist ?_ payload.segment_ids
      intro e he
      simp only [List.mem_append] at he
      rcases he with he | he
      · rcases List.mem_cons.mp he with h1 | h1
        · subst h1; exact ⟨rfl, rfl⟩
        · rcases List.mem_cons.mp h1 with h2 | h2
          · subst h2; exact ⟨rfl, rfl⟩
          · simp at h2
      · rw [writeLoop_events sig items 0 e he]
        exact ⟨rfl, rfl⟩
    | false =>
      simp only [merge_segments, hs, Bool.false_eq_true, if_false]
      have hshape :
          ([Event.hideSegments payload.segment_ids,
              Event.createWriter (decide (payload.dest_level = m.last_level_index))]
            ++ (writeLoop sig 0 items).1
            ++ newIds.map Event.installSegment
            ++ payload.segment_ids.map Event.removeFromManifest
            ++ [Event.persistManifest (payload.segment_ids.foldl
                  (fun acc id => acc.remove id)
                  (newIds.foldl (fun acc id =>
                      acc.insert_into_level payload.dest_level id)
                    (m.hide_segments payload.segment_ids))).levels]
            ++ payload.segment_ids.map Event.deleteSegmentFolder
            ++ payload.segment_ids.map Event.removeDescriptor
            ++ [Event.showSegments payload.segment_ids]) =
          (([Event.hideSegments payload.segment_ids,
              Event.createWriter (decide (payload.dest_level = m.last_level_index))]
            ++ (writeLoop sig 0 items).1
            ++ newIds.map Event.installSegment
            ++ payload.segment_ids.map Event.removeFromManifest)
            ++ Event.persistManifest (payload.segment_ids.foldl
                  (fun acc id => acc.remove id)
                  (newIds.foldl (fun acc id =>
                      acc.insert_into_level payload.dest_level id)
                    (m.hide_segments payload.segment_ids))).levels
              :: (payload.segment_ids.map Event.deleteSegmentFolder
                ++ payload.segment_ids.map Event.removeDescriptor
                ++ [Event.showSegments payload.segment_ids])) := by
        simp [List.append_assoc]
      rw [hshape]
      refine trace_check (merge_prefix_clean payload sig items newIds _) ?_
      intro id hid
      exact foldl_remove_not_mem payload.segment_ids _ id hid
  · have hshape : (drop_segments m2 ids).2 =
        (ids.map Event.removeFromManifest
          ++ Event.persistManifest
              (ids.foldl (fun acc id => acc.remove id) m2).levels
            :: (ids.map Event.deleteSegmentFolder
              ++ ids.map Event.removeDescriptor)) := by
      simp [drop_segments, List.append_assoc]
    rw [hshape]
    refine trace_check ?_ ?_
    · intro e he
      obtain ⟨i, -, rfl⟩ := List.mem_map.mp he
      exact ⟨rfl, rfl⟩
    · intro id hid
      exact foldl_remove_not_mem ids m2 id hid

/-- Claim C4: if the stop signal is set at one of the merge loop's periodic
checks (every 100 000 emitted items, counting from item index 0), then
`merge_segments` stops mid-merge — and its effect trace holds no
manifest-commit event: no created segment is installed, no input segment is
removed from the manifest, and no manifest state is persisted to disk. In the
error-free model the early return is `Ok(())`. -/
theorem merge_segments_stop_aborts_without_commit
    (m : LevelManifest) (payload : Input) (items : List InternalValue)
    (sig : Nat → Bool) (newIds : List Nat)
    (hex : ∃ i, i < items.length ∧ i % 100000 = 0 ∧ sig i = true) :
    (merge_segments m payload items sig newIds).stopped = true ∧
    (merge_segments m payload items sig newIds).events.all
      (fun e => !e.isCommit) = true := by
  have hstop : (writeLoop sig 0 items).2 = true := by
    refine writeLoop_stopped_of_sig sig items 0 ?_
    obtain ⟨i, h1, h2, h3⟩ := hex
    refine ⟨i, h1, ?_, ?_⟩
    · omega
    · rw [Nat.zero_add]
      exact h3
  simp only [merge_segments, hstop, if_true]
  refine ⟨by trivial, ?_⟩
  rw [List.all_eq_true]
  intro e he
  simp only [List.mem_append] at he
  rcases he with he | he
  · rcases List.mem_cons.mp he with h1 | h1
    · subst h1; rfl
    · rcases List.mem_cons.mp h1 with h2 | h2
      · subst h2; rfl
      · simp at h2
  · rw [writeLoop_events sig items 0 e he]
    rfl

theorem merge_segments_stop_aborts_without_commit_witness :
    (∃ i, i < ([MvccStream.vA0] : List InternalValue).length ∧
      i % 100000 = 0 ∧ (fun (_ : Nat) => true) i = true) ∧
    (merge_segments ⟨[[5]], []⟩ ⟨[5], 0, 0⟩ [MvccStream.vA0]
      (fun _ => true) []).stopped = true ∧
    (merge_segments ⟨[[5]], []⟩ ⟨[5], 0, 0⟩ [MvccStream.vA0]
      (fun _ => true) []).events.all (fun e => !e.isCommit) = true := by
  have hex : ∃ i, i < ([MvccStream.vA0] : List InternalValue).length ∧
      i % 100000 = 0 ∧ (fun (_ : Nat) => true) i = true := ⟨0, by simp⟩
  exact ⟨hex,
    (merge_segments_stop_aborts_without_commit ⟨[[5]], []⟩ ⟨[5], 0, 0⟩
      [MvccStream.vA0] (fun _ => true) [] hex).1,
    (merge_segments_stop_aborts_without_commit ⟨[[5]], []⟩ ⟨[5], 0, 0⟩
      [MvccStream.vA0] (fun _ => true) [] hex).2⟩

/-- Claim C5 (code evaluated at the failing input): aborting on the stop
signal after `hide_segments`, `merge_segments` returns with the input segment
still hidden in the manifest, and its whole effect trace is the hide, the
writer creation and one item write — there is no `show_segments` and no
unlinking of partial output files, so nothing is rolled back. -/
theorem merge_segments_stop_leaves_inputs_hidden :
    merge_segments ⟨[[5]], []⟩ ⟨[5], 0, 0⟩ [MvccStream.vA0] (fun _ => true) [] =
      { stopped := true, manifest := { levels := [[5]], hidden := [5] },
        events := [Event.hideSegments [5], Event.createWriter true,
          Event.writeItem] } := by
  rfl

/-- Claim C7: the segment writer of `merge_segments` is configured to evict
plain tombstones exactly when the payload's destination level equals the last
level index of the manifest. -/
theorem merge_segments_evict_tombstones_iff_last_level
    (m : LevelManifest) (payload : Input) (items : List InternalValue)
    (sig : Nat → Bool) (newIds : List Nat) :
    writerEvictFlag (merge_segments m payload items sig newIds).events =
      some (decide (payload.dest_level = m.last_level_index)) := by
  cases hs : (writeLoop sig 0 items).2 with
  | true =>
    simp only [merge_segments, hs, if_true]
    unfold writerEvictFlag
    simp [List.find?, Event.isCreateWriter]
  | false =>
    simp only [merge_segments, hs, Bool.false_eq_true, if_false]
    unfold writerEvictFlag
    simp [List.find?, Event.isCreateWriter]

end Compaction

end LsmTree
